import Mathlib

/-!
Shallow embedding of `src/src/tween/mod.rs`: a keyframe curve engine over an
ordered map from integer positions to values, with pluggable interpolation
strategies (Linear, Hold) over scalar and 3-component vector values.

Modelling conventions:
* Rust `i64` positions are modelled as `Int` (the program performs no
  wrapping arithmetic on positions at the magnitudes of interest).
* Rust `f64` values and the `Time` type are modelled as exact rationals `ℚ`.
* `BTreeMap<Position, T>` is modelled as an association list sorted strictly
  ascending by key (`SortedKeys`); `insert` is `insertSorted`, the range
  iterators `range((Included k, Unbounded)).next()` and
  `range((Unbounded, Excluded k)).next_back()` are `firstGE` and `lastLT`.
* A Rust panic is an abrupt, non-value outcome; `value_at` therefore returns
  `Except Panic T`, where `Panic.tooFar` models the explicit
  `panic!("too far")` at the end of `value_at`, and `Panic.unwrapNone`
  models the panic raised by `pre_range.next_back().unwrap()` on `None`.
  Both constructors model process aborts, not recoverable error values:
  the Rust signature of `value_at` returns plain `T`, so the caller is
  never handed an error result.
-/

namespace Tween

/-- Rust `type Keyframe<'a, T> = (&'a Position, &'a T)` (a borrowed pair);
`type Position = i64` is idealised as `Int` and `type Time = f64` is
modelled as `ℚ` throughout. -/
abbrev Keyframe (T : Type) := Int × T

/-- Rust `struct Vector { x: f64, y: f64, z: f64 }`. -/
structure Vector where
  x : ℚ
  y : ℚ
  z : ℚ
deriving DecidableEq

/-- `impl Add for Vector`: componentwise sum. -/
def Vector.add (a b : Vector) : Vector :=
  ⟨a.x + b.x, a.y + b.y, a.z + b.z⟩

/-- `impl Mul<f64> for &Vector`: componentwise scaling by a scalar. -/
def Vector.mulScalar (a : Vector) (s : ℚ) : Vector :=
  ⟨a.x * s, a.y * s, a.z * s⟩

/-- Rust trait `Interpolatable<'a, T>`. -/
class Interpolatable (T : Type) where
  interpolate : Keyframe T → Keyframe T → ℚ → T

/-- `impl Interpolatable<f64> for f64` (lines 50–61 of the source):
guard on equal positions, otherwise blend with
`alpha = (time - pre.0) / (post.0 - pre.0)`. -/
def interpolateRat (pre post : Keyframe ℚ) (time : ℚ) : ℚ :=
  if pre.fst = post.fst then
    pre.snd
  else
    let alpha := (time - (pre.fst : ℚ)) / (((post.fst - pre.fst : Int) : ℚ))
    let p1 := pre.snd * (1 - alpha)
    let p2 := post.snd * alpha
    p1 + p2

instance instInterpolatableRat : Interpolatable ℚ := ⟨interpolateRat⟩

/-- `impl Interpolatable<Vector> for Vector` (lines 63–74 of the source). -/
def interpolateVector (pre post : Keyframe Vector) (time : ℚ) : Vector :=
  if pre.fst = post.fst then
    pre.snd
  else
    let alpha := (time - (pre.fst : ℚ)) / (((post.fst - pre.fst : Int) : ℚ))
    let p1 := pre.snd.mulScalar (1 - alpha)
    let p2 := post.snd.mulScalar alpha
    Vector.add p1 p2

instance instInterpolatableVector : Interpolatable Vector := ⟨interpolateVector⟩

/-- Rust trait `Interpolator` (a strategy: a pure function of the bracketing
pair and the query time), reified as a structure so that theorems can
quantify over every strategy. -/
structure Interpolator (T : Type) where
  get : Keyframe T → Keyframe T → ℚ → T

/-- `impl Interpolator for LinearInterpolator`: delegates to `interpolate`. -/
def LinearInterpolator (T : Type) [Interpolatable T] : Interpolator T :=
  ⟨fun pre post time => Interpolatable.interpolate pre post time⟩

/-- `impl Interpolator for HoldInterpolator`: calls
`T::interpolate(pre, pre, *pre.0 as Time)`, ignoring `post` and the time. -/
def HoldInterpolator (T : Type) [Interpolatable T] : Interpolator T :=
  ⟨fun pre _post _time => Interpolatable.interpolate pre pre ((pre.fst : ℚ))⟩

/-- `BTreeMap::insert` on the sorted-association-list model: inserts keeping
keys sorted, replacing the value at an existing key (last write wins). -/
def insertSorted {T : Type} (key : Int) (value : T) :
    List (Keyframe T) → List (Keyframe T)
  | [] => [(key, value)]
  | kv :: rest =>
    if key < kv.fst then (key, value) :: kv :: rest
    else if key = kv.fst then (key, value) :: rest
    else kv :: insertSorted key value rest

/-- `self.points.range((Included(wanted_key), Unbounded)).next()`: the first
entry (in list order) whose key is ≥ the wanted key; on a sorted list this
is the entry with the smallest such key. -/
def firstGE {T : Type} (wanted : Int) :
    List (Keyframe T) → Option (Keyframe T)
  | [] => none
  | kv :: rest => if wanted ≤ kv.fst then some kv else firstGE wanted rest

/-- `self.points.range((Unbounded, Excluded(wanted_key))).next_back()`: the
last entry (in list order) whose key is < the wanted key; on a sorted list
this is the entry with the largest such key. -/
def lastLT {T : Type} (wanted : Int) :
    List (Keyframe T) → Option (Keyframe T)
  | [] => none
  | kv :: rest =>
    if kv.fst < wanted then
      match lastLT wanted rest with
      | some found => some found
      | none => some kv
    else lastLT wanted rest

/-- The two panics `value_at` can raise: the explicit `panic!("too far")`
and the panic of `Option::unwrap` applied to `None`. Both model process
aborts (the Rust function returns plain `T`, never an error value). -/
inductive Panic where
  | tooFar
  | unwrapNone
deriving DecidableEq

/-- Rust `struct BTreeCurve<T, IP>`: the ordered keyframe store. The
interpolator, a zero-sized type parameter in Rust (`PhantomData<IP>`), is
passed to `value_at` as an explicit `Interpolator T` argument here. -/
structure BTreeCurve (T : Type) where
  points : List (Keyframe T)

/-- `BTreeCurve::new()`: the empty curve. -/
def BTreeCurve.new (T : Type) : BTreeCurve T := ⟨[]⟩

/-- `fn set(&mut self, key, value) { self.points.insert(key, value); }` -/
def BTreeCurve.set {T : Type} (c : BTreeCurve T) (key : Int) (value : T) :
    BTreeCurve T :=
  ⟨insertSorted key value c.points⟩

/-- `fn value_at(&self, wanted_key) -> T` (lines 115–129 of the source):
take the first entry with key ≥ wanted; if its key equals the wanted key
return its (cloned) value; otherwise unwrap the last entry with key < wanted
and delegate to the interpolator; if no entry has key ≥ wanted, panic
with the message modelled by `Panic.tooFar`. -/
def BTreeCurve.value_at {T : Type} (ip : Interpolator T) (c : BTreeCurve T)
    (wanted : Int) : Except Panic T :=
  match firstGE wanted c.points with
  | some post =>
    if wanted = post.fst then
      Except.ok post.snd
    else
      match lastLT wanted c.points with
      | some pre => Except.ok (ip.get pre post ((wanted : ℚ)))
      | none => Except.error Panic.unwrapNone
  | none => Except.error Panic.tooFar

/-- The `BTreeMap` representation invariant: keys strictly ascending. -/
def SortedKeys {T : Type} (l : List (Keyframe T)) : Prop :=
  l.Pairwise (fun a b => a.fst < b.fst)

/-- Apply a list of `set` operations in order (models a call sequence). -/
def applySets {T : Type} (ops : List (Keyframe T)) (c : BTreeCurve T) :
    BTreeCurve T :=
  ops.foldl (fun acc kv => acc.set kv.fst kv.snd) c

/-- The spec's alpha for a bracket `(p1, _), (p2, _)` and query `q`:
`(q − p1) / (p2 − p1)` as a real-valued fraction. -/
def alphaOf (p1 p2 q : Int) : ℚ :=
  ((q : ℚ) - (p1 : ℚ)) / ((p2 : ℚ) - (p1 : ℚ))

/-- The scalar curve of the source tests (lines 136–164): keyframes
`(1, 100), (3, 300), (6, 600)` inserted in order. -/
def testCurveRat : BTreeCurve ℚ :=
  (((BTreeCurve.new ℚ).set 1 100).set 3 300).set 6 600

/-- Anything in `insertSorted k v l` is the new entry or was in `l`. -/
theorem mem_insertSorted_src {T : Type} {l : List (Keyframe T)} {k : Int}
    {v : T} {x : Keyframe T} (h : x ∈ insertSorted k v l) :
    x = (k, v) ∨ x ∈ l := by
  induction l with
  | nil => simpa [insertSorted] using h
  | cons kv rest ih =>
    simp only [insertSorted] at h
    split_ifs at h with h1 h2
    · rcases List.mem_cons.mp h with rfl | h3
      · exact Or.inl rfl
      · exact Or.inr h3
    · rcases List.mem_cons.mp h with rfl | h3
      · exact Or.inl rfl
      · exact Or.inr (List.mem_cons_of_mem _ h3)
    · rcases List.mem_cons.mp h with rfl | h3
      · exact Or.inr (List.mem_cons_self _ _)
      · rcases ih h3 with h4 | h4
        · exact Or.inl h4
        · exact Or.inr (List.mem_cons_of_mem _ h4)

/-- `insertSorted` preserves the strictly-ascending-keys invariant. -/
theorem sortedKeys_insertSorted {T : Type} {l : List (Keyframe T)}
    (hs : SortedKeys l) (k : Int) (v : T) :
    SortedKeys (insertSorted k v l) := by
  induction l with
  | nil => simp [insertSorted, SortedKeys]
  | cons kv rest ih =>
    rw [SortedKeys, List.pairwise_cons] at hs
    obtain ⟨hlt, hrest⟩ := hs
    by_cases h1 : k < kv.fst
    · simp only [insertSorted, if_pos h1]
      rw [SortedKeys, List.pairwise_cons]
      refine ⟨?_, ?_⟩
      · intro b hb
        rcases List.mem_cons.mp hb with rfl | hb2
        · exact h1
        · exact h1.trans (hlt _ hb2)
      · rw [List.pairwise_cons]
        exact ⟨hlt, hrest⟩
    · by_cases h2 : k = kv.fst
      · simp only [insertSorted, if_neg h1, if_pos h2]
        rw [SortedKeys, List.pairwise_cons]
        refine ⟨?_, hrest⟩
        intro b hb
        have := hlt b hb
        omega
      · have h3 : kv.fst < k := by omega
        simp only [insertSorted, if_neg h1, if_neg h2]
        rw [SortedKeys, List.pairwise_cons]
        refine ⟨?_, ih hrest⟩
        intro b hb
        rcases mem_insertSorted_src hb with rfl | hb2
        · exact h3
        · exact hlt _ hb2

/-- Full membership characterization of `insertSorted` on a sorted list:
the new entry is present, and the old entries survive exactly when their
key differs from the inserted key (last write wins). -/
theorem mem_insertSorted_iff {T : Type} {l : List (Keyframe T)}
    (hs : SortedKeys l) {k : Int} {v : T} {x : Keyframe T} :
    x ∈ insertSorted k v l ↔ x = (k, v) ∨ (x ∈ l ∧ x.fst ≠ k) := by
  induction l with
  | nil => simp [insertSorted]
  | cons kv rest ih =>
    rw [SortedKeys, List.pairwise_cons] at hs
    obtain ⟨hlt, hrest⟩ := hs
    have hrest2 : SortedKeys rest := hrest
    by_cases h1 : k < kv.fst
    · simp only [insertSorted, if_pos h1, List.mem_cons]
      constructor
      · rintro (rfl | rfl | hx)
        · exact Or.inl rfl
        · exact Or.inr ⟨Or.inl rfl, by omega⟩
        · have := hlt _ hx
          exact Or.inr ⟨Or.inr hx, by omega⟩
      · rintro (rfl | ⟨rfl | hx, hne⟩)
        · exact Or.inl rfl
        · exact Or.inr (Or.inl rfl)
        · exact Or.inr (Or.inr hx)
    · by_cases h2 : k = kv.fst
      · simp only [insertSorted, if_neg h1, if_pos h2, List.mem_cons]
        constructor
        · rintro (rfl | hx)
          · exact Or.inl rfl
          · have := hlt _ hx
            exact Or.inr ⟨Or.inr hx, by omega⟩
        · rintro (rfl | ⟨rfl | hx, hne⟩)
          · exact Or.inl rfl
          · exact absurd h2.symm hne
          · exact Or.inr hx
      · have h3 : kv.fst < k := by omega
        simp only [insertSorted, if_neg h1, if_neg h2, List.mem_cons]
        rw [ih hrest2]
        constructor
        · rintro (rfl | rfl | ⟨hx, hne⟩)
          · exact Or.inr ⟨Or.inl rfl, by omega⟩
          · exact Or.inl rfl
          · exact Or.inr ⟨Or.inr hx, hne⟩
        · rintro (rfl | ⟨rfl | hx, hne⟩)
          · exact Or.inr (Or.inl rfl)
          · exact Or.inl rfl
          · exact Or.inr (Or.inr ⟨hx, hne⟩)

/-- On a sorted list containing `(p, v)`, the first entry with key ≥ `p`
is exactly `(p, v)`. -/
theorem firstGE_mem_eq {T : Type} {l : List (Keyframe T)} (hs : SortedKeys l)
    {p : Int} {v : T} (hm : (p, v) ∈ l) : firstGE p l = some (p, v) := by
  induction l with
  | nil => cases hm
  | cons kv rest ih =>
    rw [SortedKeys, List.pairwise_cons] at hs
    obtain ⟨hlt, hrest⟩ := hs
    rcases List.mem_cons.mp hm with heq | hmem
    · rw [← heq]
      simp [firstGE]
    · have hk : kv.fst < p := hlt _ hmem
      simp only [firstGE, if_neg (not_le.mpr hk)]
      exact ih hrest hmem

/-- One-step unfolding of `lastLT` on a cons whose head key is below `q`. -/
theorem lastLT_cons_pos {T : Type} {kv : Keyframe T} {rest : List (Keyframe T)}
    {q : Int} (h : kv.fst < q) :
    lastLT q (kv :: rest) =
      match lastLT q rest with
      | some found => some found
      | none => some kv := by
  rw [lastLT, if_pos h]

/-- When no entry has key below `q`, the predecessor range is empty. -/
theorem lastLT_eq_none {T : Type} {l : List (Keyframe T)} {q : Int}
    (h : ∀ x ∈ l, ¬ x.fst < q) : lastLT q l = none := by
  induction l with
  | nil => rfl
  | cons kv rest ih =>
    simp only [lastLT, if_neg (h kv (List.mem_cons_self _ _))]
    exact ih fun x hx => h x (List.mem_cons_of_mem _ hx)

/-- Bracket-resolution lemma: on a sorted list holding adjacent keyframes
`(p1, v1)` and `(p2, v2)` (no stored key strictly between them), a query
strictly inside the bracket resolves `post` to `(p2, v2)` and `pre` to
`(p1, v1)`. -/
theorem bracket_eq {T : Type} {l : List (Keyframe T)} (hs : SortedKeys l)
    {p1 p2 q : Int} {v1 v2 : T}
    (h1 : (p1, v1) ∈ l) (h2 : (p2, v2) ∈ l)
    (hq1 : p1 < q) (hq2 : q < p2)
    (hgap : ∀ kv ∈ l, kv.fst ≤ p1 ∨ p2 ≤ kv.fst) :
    firstGE q l = some (p2, v2) ∧ lastLT q l = some (p1, v1) := by
  induction l with
  | nil => cases h1
  | cons kv rest ih =>
    rw [SortedKeys, List.pairwise_cons] at hs
    obtain ⟨hlt, hrest⟩ := hs
    have hkvq : kv.fst < q := by
      rcases hgap kv (List.mem_cons_self _ _) with hle | hge
      · omega
      · exfalso
        rcases List.mem_cons.mp h1 with heq | hmem
        · have : kv.fst = p1 := by rw [← heq]
          omega
        · have := hlt _ hmem
          omega
    rcases List.mem_cons.mp h1 with heq1 | hmem1
    · have hkv1 : kv = (p1, v1) := heq1.symm
      subst hkv1
      have hrestge : ∀ x ∈ rest, p2 ≤ x.fst := by
        intro x hx
        rcases hgap x (List.mem_cons_of_mem _ hx) with hle | hge
        · have := hlt _ hx
          simp only at this
          omega
        · exact hge
      have h2rest : (p2, v2) ∈ rest := by
        rcases List.mem_cons.mp h2 with heq | hm
        · exfalso
          have : p2 = p1 := congrArg Prod.fst heq
          omega
        · exact hm
      obtain ⟨y, rest2, rfl⟩ : ∃ y rest2, rest = y :: rest2 := by
        cases rest with
        | nil => cases h2rest
        | cons a b => exact ⟨a, b, rfl⟩
      have hy : y = (p2, v2) := by
        rcases List.mem_cons.mp h2rest with heq | hm
        · exact heq.symm
        · exfalso
          rw [List.pairwise_cons] at hrest
          have hy1 := hrest.1 _ hm
          have hy2 := hrestge y (List.mem_cons_self _ _)
          simp only at hy1
          omega
      subst hy
      refine ⟨?_, ?_⟩
      · have hp1q : ¬ (q ≤ p1) := by omega
        simp only [firstGE, if_neg hp1q, if_pos (le_of_lt hq2)]
      · have hnone : lastLT q ((p2, v2) :: rest2) = none := by
          apply lastLT_eq_none
          intro x hx
          have := hrestge x hx
          omega
        rw [lastLT_cons_pos hq1, hnone]
    · have hkv1 : kv.fst < p1 := hlt _ hmem1
      have h2rest : (p2, v2) ∈ rest := by
        rcases List.mem_cons.mp h2 with heq | hm
        · exfalso
          have : kv.fst = p2 := by rw [← heq]
          omega
        · exact hm
      have ihres := ih hrest hmem1 h2rest
        (fun x hx => hgap x (List.mem_cons_of_mem _ hx))
      refine ⟨?_, ?_⟩
      · simp only [firstGE, if_neg (not_le.mpr hkvq)]
        exact ihres.1
      · simp only [lastLT, if_pos hkvq, ihres.2]

/-- When every stored key is below `q`, the successor range is empty. -/
theorem firstGE_eq_none {T : Type} {l : List (Keyframe T)} {q : Int}
    (h : ∀ x ∈ l, x.fst < q) : firstGE q l = none := by
  induction l with
  | nil => rfl
  | cons kv rest ih =>
    simp only [firstGE, if_neg (not_le.mpr (h kv (List.mem_cons_self _ _)))]
    exact ih fun x hx => h x (List.mem_cons_of_mem _ hx)

/-- Exact-match lookup: on a curve with sorted keys, querying at a stored
key returns the stored value for every interpolator. -/
theorem valueAt_of_mem {T : Type} (ip : Interpolator T) (c : BTreeCurve T)
    {p : Int} {v : T} (hs : SortedKeys c.points) (hm : (p, v) ∈ c.points) :
    c.value_at ip p = Except.ok v := by
  have hf := firstGE_mem_eq hs hm
  simp [BTreeCurve.value_at, hf]

/-- Bracket delegation: a strictly interior query hands the bracketing pair
and the query position to the interpolator. -/
theorem valueAt_bracket {T : Type} (ip : Interpolator T) (c : BTreeCurve T)
    {p1 p2 q : Int} {v1 v2 : T} (hs : SortedKeys c.points)
    (h1 : (p1, v1) ∈ c.points) (h2 : (p2, v2) ∈ c.points)
    (hgap : ∀ kv ∈ c.points, kv.fst ≤ p1 ∨ p2 ≤ kv.fst)
    (hq1 : p1 < q) (hq2 : q < p2) :
    c.value_at ip q = Except.ok (ip.get (p1, v1) (p2, v2) ((q : ℚ))) := by
  obtain ⟨hf, hl⟩ := bracket_eq hs h1 h2 hq1 hq2 hgap
  have hne : ¬ (q = (p2, v2).fst) := by simp only; omega
  simp [BTreeCurve.value_at, hf, hl, hne]

/-- A query above every stored key panics with the `"too far"` message. -/
theorem valueAt_above {T : Type} (ip : Interpolator T) (c : BTreeCurve T)
    {q : Int} (h : ∀ kv ∈ c.points, kv.fst < q) :
    c.value_at ip q = Except.error Panic.tooFar := by
  have h1 : firstGE q c.points = none := firstGE_eq_none h
  simp [BTreeCurve.value_at, h1]

/-- A query below every stored key of a non-empty curve panics through
`Option::unwrap` on the empty predecessor range. -/
theorem valueAt_below {T : Type} (ip : Interpolator T) (c : BTreeCurve T)
    {q : Int} (hne : c.points ≠ []) (h : ∀ kv ∈ c.points, q < kv.fst) :
    c.value_at ip q = Except.error Panic.unwrapNone := by
  obtain ⟨kv, rest, hl⟩ : ∃ kv rest, c.points = kv :: rest := by
    cases hp : c.points with
    | nil => exact absurd hp hne
    | cons a b => exact ⟨a, b, rfl⟩
  have hq : q < kv.fst := h kv (hl ▸ List.mem_cons_self _ _)
  have hfirst : firstGE q c.points = some kv := by
    rw [hl]
    simp [firstGE, le_of_lt hq]
  have hlast : lastLT q c.points = none :=
    lastLT_eq_none fun x hx => by
      have := h x hx
      omega
  have hne2 : ¬ (q = kv.fst) := by omega
  simp [BTreeCurve.value_at, hfirst, hlast, hne2]

/-- Querying the empty curve panics with the `"too far"` message. -/
theorem valueAt_empty {T : Type} (ip : Interpolator T) (q : Int) :
    (BTreeCurve.new T).value_at ip q = Except.error Panic.tooFar := rfl

/-- `applySets` peels one operation at a time. -/
theorem applySets_cons {T : Type} (op : Keyframe T) (ops : List (Keyframe T))
    (c : BTreeCurve T) :
    applySets (op :: ops) c = applySets ops (c.set op.fst op.snd) := rfl

/-- Any sequence of `set` calls preserves the sorted-keys invariant. -/
theorem sortedKeys_applySets {T : Type} (ops : List (Keyframe T))
    (c : BTreeCurve T) (hs : SortedKeys c.points) :
    SortedKeys (applySets ops c).points := by
  induction ops generalizing c with
  | nil => exact hs
  | cons op rest ih =>
    rw [applySets_cons]
    exact ih _ (sortedKeys_insertSorted hs _ _)

/-- Sorted keys are pairwise distinct. -/
theorem keys_nodup_of_sortedKeys {T : Type} {l : List (Keyframe T)}
    (hs : SortedKeys l) : (l.map Prod.fst).Nodup := by
  rw [List.Nodup, List.pairwise_map]
  exact hs.imp fun h => by omega

/-- The entries are pairwise distinct on a sorted store. -/
theorem nodup_of_sortedKeys {T : Type} {l : List (Keyframe T)}
    (hs : SortedKeys l) : l.Nodup :=
  hs.imp fun h => by
    intro he
    rw [he] at h
    exact lt_irrefl _ h

/-- Membership after a sequence of `set` calls with pairwise-distinct keys:
an entry is in the final store iff it is one of the operations, or it was
already stored at a key none of the operations touches. -/
theorem mem_applySets {T : Type} {ops : List (Keyframe T)} {c : BTreeCurve T}
    (hs : SortedKeys c.points) (hnd : (ops.map Prod.fst).Nodup)
    {x : Keyframe T} :
    x ∈ (applySets ops c).points ↔
      x ∈ ops ∨ (x ∈ c.points ∧ x.fst ∉ ops.map Prod.fst) := by
  induction ops generalizing c with
  | nil => simp [applySets]
  | cons op rest ih =>
    rw [applySets_cons]
    rw [List.map_cons, List.nodup_cons] at hnd
    obtain ⟨hop, hnd2⟩ := hnd
    rw [ih (c := c.set op.fst op.snd) (sortedKeys_insertSorted hs op.fst op.snd)
      hnd2]
    rw [show (c.set op.fst op.snd).points = insertSorted op.fst op.snd c.points
      from rfl]
    rw [mem_insertSorted_iff hs]
    simp only [List.mem_cons, List.map_cons, not_or]
    constructor
    · rintro (hx | ⟨rfl | ⟨hc, hne⟩, hnotin⟩)
      · exact Or.inl (Or.inr hx)
      · exact Or.inl (Or.inl Prod.mk.eta)
      · exact Or.inr ⟨hc, hne, hnotin⟩
    · rintro ((rfl | hx) | ⟨hc, hne, hnr⟩)
      · exact Or.inr ⟨Or.inl Prod.mk.eta.symm, hop⟩
      · exact Or.inl hx
      · exact Or.inr ⟨Or.inr ⟨hc, hne⟩, hnr⟩

/-- Two stores with sorted keys holding the same entries are equal. -/
theorem eq_of_sortedKeys_of_perm {T : Type} {l1 l2 : List (Keyframe T)}
    (hp : l1.Perm l2) (h1 : SortedKeys l1) (h2 : SortedKeys l2) : l1 = l2 := by
  haveI : IsAntisymm (Keyframe T) (fun a b => a.fst < b.fst) :=
    ⟨fun _ _ hab hba => absurd (hab.trans hba) (lt_irrefl _)⟩
  exact List.eq_of_perm_of_sorted hp h1 h2

/-- Inserting pairwise-distinct-key operations from the empty curve in any
two orders yields identical stores. -/
theorem applySets_perm_eq {T : Type} {ops1 ops2 : List (Keyframe T)}
    (hp : ops1.Perm ops2) (hnd : (ops1.map Prod.fst).Nodup) :
    (applySets ops1 (BTreeCurve.new T)).points =
      (applySets ops2 (BTreeCurve.new T)).points := by
  have hsnew : SortedKeys (BTreeCurve.new T).points := List.Pairwise.nil
  have hnd2 : (ops2.map Prod.fst).Nodup := ((hp.map Prod.fst).nodup_iff).mp hnd
  have hs1 := sortedKeys_applySets ops1 (BTreeCurve.new T) hsnew
  have hs2 := sortedKeys_applySets ops2 (BTreeCurve.new T) hsnew
  have hmem : ∀ x, x ∈ (applySets ops1 (BTreeCurve.new T)).points ↔
      x ∈ (applySets ops2 (BTreeCurve.new T)).points := by
    intro x
    rw [mem_applySets hsnew hnd, mem_applySets hsnew hnd2]
    simp only [BTreeCurve.new, List.not_mem_nil, false_and, or_false]
    exact hp.mem_iff
  exact eq_of_sortedKeys_of_perm
    ((List.perm_ext_iff_of_nodup (nodup_of_sortedKeys hs1)
      (nodup_of_sortedKeys hs2)).mpr hmem) hs1 hs2

/-- The Linear blend at a degenerate (equal-position) bracket returns the
pre-value: the scalar case. -/
theorem interpolateRat_self (p : Int) (v w : ℚ) (t : ℚ) :
    interpolateRat (p, v) (p, w) t = v := by
  simp [interpolateRat]

/-- The Linear blend at a degenerate (equal-position) bracket returns the
pre-value: the vector case. -/
theorem interpolateVector_self (p : Int) (v w : Vector) (t : ℚ) :
    interpolateVector (p, v) (p, w) t = v := by
  simp [interpolateVector]

/-- The scalar Linear blend on a genuine bracket, rewritten with the cast
of the position difference pushed through. -/
theorem interpolateRat_ne (p1 p2 : Int) (v1 v2 : ℚ) (t : ℚ) (h : p1 ≠ p2) :
    interpolateRat (p1, v1) (p2, v2) t =
      v1 * (1 - (t - (p1 : ℚ)) / ((p2 : ℚ) - (p1 : ℚ))) +
        v2 * ((t - (p1 : ℚ)) / ((p2 : ℚ) - (p1 : ℚ))) := by
  have h2 : ¬ ((p1, v1).fst = (p2, v2).fst) := by simpa using h
  simp only [interpolateRat, if_neg h2]
  push_cast
  ring

/-- The vector Linear blend on a genuine bracket: componentwise. -/
theorem interpolateVector_ne (p1 p2 : Int) (v1 v2 : Vector) (t : ℚ)
    (h : p1 ≠ p2) :
    interpolateVector (p1, v1) (p2, v2) t =
      ⟨v1.x * (1 - (t - (p1 : ℚ)) / ((p2 : ℚ) - (p1 : ℚ))) +
          v2.x * ((t - (p1 : ℚ)) / ((p2 : ℚ) - (p1 : ℚ))),
        v1.y * (1 - (t - (p1 : ℚ)) / ((p2 : ℚ) - (p1 : ℚ))) +
          v2.y * ((t - (p1 : ℚ)) / ((p2 : ℚ) - (p1 : ℚ))),
        v1.z * (1 - (t - (p1 : ℚ)) / ((p2 : ℚ) - (p1 : ℚ))) +
          v2.z * ((t - (p1 : ℚ)) / ((p2 : ℚ) - (p1 : ℚ)))⟩ := by
  have h2 : ¬ ((p1, v1).fst = (p2, v2).fst) := by simpa using h
  simp only [interpolateVector, if_neg h2, Vector.add, Vector.mulScalar]
  push_cast
  rfl

/-- Curves with equal stores are equal. -/
theorem curve_eq_of_points_eq {T : Type} {c d : BTreeCurve T}
    (h : c.points = d.points) : c = d := by
  cases c
  cases d
  cases h
  rfl

/-- C1: for every curve with the sorted-store invariant, every interpolator
`ip` and every keyframe `(p, v)` stored in the curve (in particular right
after `set p v`), `value_at p` returns exactly the stored value `v`,
independently of `ip` — the interpolator is bypassed on an exact match. -/
theorem exact_match_returns_stored {T : Type} (ip : Interpolator T)
    (c : BTreeCurve T) (p : Int) (v : T) (hs : SortedKeys c.points) :
    ((p, v) ∈ c.points → c.value_at ip p = Except.ok v) ∧
    (c.set p v).value_at ip p = Except.ok v := by
  refine ⟨fun hm => valueAt_of_mem ip c hs hm, ?_⟩
  exact valueAt_of_mem ip _ (sortedKeys_insertSorted hs p v)
    ((mem_insertSorted_iff hs).mpr (Or.inl rfl))

/-- C1 witness at a concrete curve, for the Linear interpolator. -/
theorem exact_match_returns_stored_witness :
    (BTreeCurve.set ⟨[(3, 7)]⟩ 1 5).value_at (LinearInterpolator ℚ) 1 =
      Except.ok 5 :=
  (exact_match_returns_stored (LinearInterpolator ℚ) ⟨[(3, 7)]⟩ 1 5
    (by simp [SortedKeys])).2

/-- C2: for a Linear-interpolator curve holding adjacent keyframes
`(p1, v1)` and `(p2, v2)` (no stored key strictly between them) and a query
`q` strictly inside the bracket, `value_at q` is
`v1*(1 − alpha) + v2*alpha` with `alpha = (q − p1)/(p2 − p1)`, exactly for
scalars and componentwise for vectors (exact in the rational model of
`f64`). -/
theorem linear_between_law :
    (∀ (c : BTreeCurve ℚ) (p1 p2 q : Int) (v1 v2 : ℚ),
      SortedKeys c.points → (p1, v1) ∈ c.points → (p2, v2) ∈ c.points →
      (∀ kv ∈ c.points, kv.fst ≤ p1 ∨ p2 ≤ kv.fst) → p1 < q → q < p2 →
      c.value_at (LinearInterpolator ℚ) q =
        Except.ok (v1 * (1 - alphaOf p1 p2 q) + v2 * alphaOf p1 p2 q)) ∧
    (∀ (c : BTreeCurve Vector) (p1 p2 q : Int) (v1 v2 : Vector),
      SortedKeys c.points → (p1, v1) ∈ c.points → (p2, v2) ∈ c.points →
      (∀ kv ∈ c.points, kv.fst ≤ p1 ∨ p2 ≤ kv.fst) → p1 < q → q < p2 →
      c.value_at (LinearInterpolator Vector) q =
        Except.ok ⟨v1.x * (1 - alphaOf p1 p2 q) + v2.x * alphaOf p1 p2 q,
          v1.y * (1 - alphaOf p1 p2 q) + v2.y * alphaOf p1 p2 q,
          v1.z * (1 - alphaOf p1 p2 q) + v2.z * alphaOf p1 p2 q⟩) := by
  constructor
  · intro c p1 p2 q v1 v2 hs h1 h2 hgap hq1 hq2
    rw [valueAt_bracket (LinearInterpolator ℚ) c hs h1 h2 hgap hq1 hq2]
    have hget : (LinearInterpolator ℚ).get (p1, v1) (p2, v2) ((q : ℚ)) =
        interpolateRat (p1, v1) (p2, v2) ((q : ℚ)) := rfl
    rw [hget, interpolateRat_ne p1 p2 v1 v2 _ (by omega), alphaOf]
  · intro c p1 p2 q v1 v2 hs h1 h2 hgap hq1 hq2
    rw [valueAt_bracket (LinearInterpolator Vector) c hs h1 h2 hgap hq1 hq2]
    have hget : (LinearInterpolator Vector).get (p1, v1) (p2, v2) ((q : ℚ)) =
        interpolateVector (p1, v1) (p2, v2) ((q : ℚ)) := rfl
    rw [hget, interpolateVector_ne p1 p2 v1 v2 _ (by omega), alphaOf]

/-- C2 witness: the scalar and vector two-keyframe curves queried at the
midpoint. -/
theorem linear_between_law_witness :
    BTreeCurve.value_at (LinearInterpolator ℚ) ⟨[(1, 100), (3, 300)]⟩ 2 =
        Except.ok (100 * (1 - alphaOf 1 3 2) + 300 * alphaOf 1 3 2) ∧
    BTreeCurve.value_at (LinearInterpolator Vector)
        ⟨[(1, ⟨100, 1000, 10000⟩), (3, ⟨300, 3000, 30000⟩)]⟩ 2 =
      Except.ok ⟨100 * (1 - alphaOf 1 3 2) + 300 * alphaOf 1 3 2,
        1000 * (1 - alphaOf 1 3 2) + 3000 * alphaOf 1 3 2,
        10000 * (1 - alphaOf 1 3 2) + 30000 * alphaOf 1 3 2⟩ := by
  constructor
  · exact linear_between_law.1 ⟨[(1, 100), (3, 300)]⟩ 1 3 2 100 300
      (by norm_num [SortedKeys]) (by simp) (by simp)
      (by norm_num) (by norm_num) (by norm_num)
  · exact linear_between_law.2 ⟨[(1, ⟨100, 1000, 10000⟩), (3, ⟨300, 3000, 30000⟩)]⟩
      1 3 2 ⟨100, 1000, 10000⟩ ⟨300, 3000, 30000⟩
      (by norm_num [SortedKeys]) (by simp) (by simp)
      (by norm_num) (by norm_num) (by norm_num)

/-- C3: for a Hold-interpolator curve holding adjacent keyframes `(p1, v1)`
and `(p2, v2)`, every query in `[p1, p2)` returns the stored pre-value `v1`
unchanged, for scalar and vector curves. -/
theorem hold_law :
    (∀ (c : BTreeCurve ℚ) (p1 p2 q : Int) (v1 v2 : ℚ),
      SortedKeys c.points → (p1, v1) ∈ c.points → (p2, v2) ∈ c.points →
      (∀ kv ∈ c.points, kv.fst ≤ p1 ∨ p2 ≤ kv.fst) → p1 ≤ q → q < p2 →
      c.value_at (HoldInterpolator ℚ) q = Except.ok v1) ∧
    (∀ (c : BTreeCurve Vector) (p1 p2 q : Int) (v1 v2 : Vector),
      SortedKeys c.points → (p1, v1) ∈ c.points → (p2, v2) ∈ c.points →
      (∀ kv ∈ c.points, kv.fst ≤ p1 ∨ p2 ≤ kv.fst) → p1 ≤ q → q < p2 →
      c.value_at (HoldInterpolator Vector) q = Except.ok v1) := by
  constructor
  · intro c p1 p2 q v1 v2 hs h1 h2 hgap hq1 hq2
    rcases eq_or_lt_of_le hq1 with rfl | hlt
    · exact valueAt_of_mem _ c hs h1
    · rw [valueAt_bracket (HoldInterpolator ℚ) c hs h1 h2 hgap hlt hq2]
      have hget : (HoldInterpolator ℚ).get (p1, v1) (p2, v2) ((q : ℚ)) =
          interpolateRat (p1, v1) (p1, v1) ((p1 : ℚ)) := rfl
      rw [hget, interpolateRat_self]
  · intro c p1 p2 q v1 v2 hs h1 h2 hgap hq1 hq2
    rcases eq_or_lt_of_le hq1 with rfl | hlt
    · exact valueAt_of_mem _ c hs h1
    · rw [valueAt_bracket (HoldInterpolator Vector) c hs h1 h2 hgap hlt hq2]
      have hget : (HoldInterpolator Vector).get (p1, v1) (p2, v2) ((q : ℚ)) =
          interpolateVector (p1, v1) (p1, v1) ((p1 : ℚ)) := rfl
      rw [hget, interpolateVector_self]

/-- C3 witness: Hold on the two-keyframe curves, at the left endpoint and
strictly inside the bracket. -/
theorem hold_law_witness :
    BTreeCurve.value_at (HoldInterpolator ℚ) ⟨[(1, 100), (3, 300)]⟩ 2 =
        Except.ok 100 ∧
    BTreeCurve.value_at (HoldInterpolator ℚ) ⟨[(1, 100), (3, 300)]⟩ 1 =
        Except.ok 100 ∧
    BTreeCurve.value_at (HoldInterpolator Vector)
        ⟨[(1, ⟨1, 2, 3⟩), (3, ⟨4, 5, 6⟩)]⟩ 2 = Except.ok ⟨1, 2, 3⟩ := by
  refine ⟨?_, ?_, ?_⟩
  · exact hold_law.1 ⟨[(1, 100), (3, 300)]⟩ 1 3 2 100 300
      (by norm_num [SortedKeys]) (by simp) (by simp)
      (by norm_num) (by norm_num) (by norm_num)
  · exact hold_law.1 ⟨[(1, 100), (3, 300)]⟩ 1 3 1 100 300
      (by norm_num [SortedKeys]) (by simp) (by simp)
      (by norm_num) (by norm_num) (by norm_num)
  · exact hold_law.2 ⟨[(1, ⟨1, 2, 3⟩), (3, ⟨4, 5, 6⟩)]⟩ 1 3 2 ⟨1, 2, 3⟩ ⟨4, 5, 6⟩
      (by norm_num [SortedKeys]) (by simp) (by simp)
      (by norm_num) (by norm_num) (by norm_num)

/-- C4 counterexample: at the concrete out-of-range query `2` on the
non-empty curve `{1 ↦ 100}`, `value_at` does not signal a recoverable
error result — it reaches `panic!("too far")` (modelled `Panic.tooFar`),
an unrecoverable abort: the Rust signature returns plain `T`, so no
distinguishable error value is ever handed to the caller. -/
theorem out_of_range_aborts_cx :
    BTreeCurve.value_at (LinearInterpolator ℚ) ⟨[(1, 100)]⟩ 2 =
      Except.error Panic.tooFar := rfl

/-- C4 amended: for every non-empty curve and every query strictly below
the minimum or strictly above the maximum stored position, `value_at`
never returns a value (no extrapolation) — it aborts with a panic, the
`unwrap`-on-`None` panic below the minimum and the `"too far"` panic above
the maximum, rather than returning a recoverable error result. -/
theorem out_of_range_never_extrapolates {T : Type} (ip : Interpolator T)
    (c : BTreeCurve T) (q : Int) (hne : c.points ≠ []) :
    ((∀ kv ∈ c.points, q < kv.fst) →
      c.value_at ip q = Except.error Panic.unwrapNone) ∧
    ((∀ kv ∈ c.points, kv.fst < q) →
      c.value_at ip q = Except.error Panic.tooFar) :=
  ⟨fun h => valueAt_below ip c hne h, fun h => valueAt_above ip c h⟩

/-- C4 witness: both out-of-range directions on the curve `{1 ↦ 100}`. -/
theorem out_of_range_never_extrapolates_witness :
    BTreeCurve.value_at (LinearInterpolator ℚ) ⟨[(1, 100)]⟩ 0 =
        Except.error Panic.unwrapNone ∧
    BTreeCurve.value_at (LinearInterpolator ℚ) ⟨[(1, 100)]⟩ 9 =
        Except.error Panic.tooFar := by
  constructor
  · exact (out_of_range_never_extrapolates (LinearInterpolator ℚ) ⟨[(1, 100)]⟩ 0
      (List.cons_ne_nil _ _)).1 (by decide)
  · exact (out_of_range_never_extrapolates (LinearInterpolator ℚ) ⟨[(1, 100)]⟩ 9
      (List.cons_ne_nil _ _)).2 (by decide)

/-- C5: `set p v1` then `set p v2` stores `(p, v2)`, any stored entry with
key `p` is exactly `(p, v2)`, and after any sequence of `set` calls from
the empty curve the stored keys are pairwise distinct (at most one value
per position). -/
theorem set_overwrite_unique {T : Type} (c : BTreeCurve T) (p : Int)
    (v1 v2 : T) (hs : SortedKeys c.points) :
    (p, v2) ∈ ((c.set p v1).set p v2).points ∧
    (∀ x ∈ ((c.set p v1).set p v2).points, x.fst = p → x = (p, v2)) ∧
    (∀ ops : List (Keyframe T),
      ((applySets ops (BTreeCurve.new T)).points.map Prod.fst).Nodup) := by
  have hs1 : SortedKeys (c.set p v1).points := sortedKeys_insertSorted hs p v1
  refine ⟨(mem_insertSorted_iff hs1).mpr (Or.inl rfl), ?_, ?_⟩
  · intro x hx hfst
    rcases (mem_insertSorted_iff hs1).mp hx with rfl | ⟨_, hne⟩
    · rfl
    · exact absurd hfst hne
  · intro ops
    exact keys_nodup_of_sortedKeys
      (sortedKeys_applySets ops (BTreeCurve.new T) List.Pairwise.nil)

/-- C5 witness: overwriting at position 1 on the curve `{5 ↦ 2}`, and key
uniqueness after a duplicate-key `set` sequence. -/
theorem set_overwrite_unique_witness :
    (1, (20 : ℚ)) ∈ ((BTreeCurve.set (BTreeCurve.set ⟨[(5, 2)]⟩ 1 10) 1 20)).points ∧
    ((applySets [(3, (4 : ℚ)), (3, 5)] (BTreeCurve.new ℚ)).points.map
      Prod.fst).Nodup := by
  constructor
  · exact (set_overwrite_unique ⟨[(5, 2)]⟩ 1 10 20 (by simp [SortedKeys])).1
  · exact (set_overwrite_unique (⟨[]⟩ : BTreeCurve ℚ) 0 0 0
      (by simp [SortedKeys])).2.2 [(3, 4), (3, 5)]

/-- C6: inserting keyframes with pairwise-distinct positions in any two
orders (one being a permutation of the other, e.g. ascending order) yields
curves that agree on `value_at` at every query position, for every
interpolator. -/
theorem set_order_independent {T : Type} (ops1 ops2 : List (Keyframe T))
    (hp : ops1.Perm ops2) (hnd : (ops1.map Prod.fst).Nodup)
    (ip : Interpolator T) (q : Int) :
    (applySets ops1 (BTreeCurve.new T)).value_at ip q =
      (applySets ops2 (BTreeCurve.new T)).value_at ip q := by
  rw [curve_eq_of_points_eq (applySets_perm_eq hp hnd)]

/-- C6 witness: the swapped two-keyframe insertion orders agree at the
midpoint query. -/
theorem set_order_independent_witness :
    (applySets [((3 : Int), (300 : ℚ)), (1, 100)]
        (BTreeCurve.new ℚ)).value_at (LinearInterpolator ℚ) 2 =
      (applySets [((1 : Int), (100 : ℚ)), (3, 300)]
        (BTreeCurve.new ℚ)).value_at (LinearInterpolator ℚ) 2 :=
  set_order_independent _ _ (List.Perm.swap _ _ _) (by decide)
    (LinearInterpolator ℚ) 2

/-- C7: querying a curve on which no `set` has occurred panics immediately
(the `"too far"` panic) for every query position and interpolator — it
never returns a default value. -/
theorem empty_query_fatal (T : Type) (ip : Interpolator T) (q : Int) :
    (BTreeCurve.new T).value_at ip q = Except.error Panic.tooFar :=
  valueAt_empty ip q

/-- C8: both `Interpolatable` implementations return the pre-value
unchanged when the bracketing keyframes share one position: the equal-
position guard short-circuits before the alpha division is reached, so no
division by zero occurs. -/
theorem degenerate_bracket_returns_pre :
    (∀ (p : Int) (v w : ℚ) (t : ℚ), interpolateRat (p, v) (p, w) t = v) ∧
    (∀ (p : Int) (v w : Vector) (t : ℚ),
      interpolateVector (p, v) (p, w) t = v) :=
  ⟨interpolateRat_self, interpolateVector_self⟩

/-- C9: the concrete scenario of the source tests — scalar keyframes
`(1,100), (3,300), (6,600)`, Linear values at 1, 3, 6, 2, 4, 5 and Hold
values at 2, 4, 5. -/
theorem concrete_scenarios :
    testCurveRat.value_at (LinearInterpolator ℚ) 1 = Except.ok 100 ∧
    testCurveRat.value_at (LinearInterpolator ℚ) 3 = Except.ok 300 ∧
    testCurveRat.value_at (LinearInterpolator ℚ) 6 = Except.ok 600 ∧
    testCurveRat.value_at (LinearInterpolator ℚ) 2 = Except.ok 200 ∧
    testCurveRat.value_at (LinearInterpolator ℚ) 4 = Except.ok 400 ∧
    testCurveRat.value_at (LinearInterpolator ℚ) 5 = Except.ok 500 ∧
    testCurveRat.value_at (HoldInterpolator ℚ) 2 = Except.ok 100 ∧
    testCurveRat.value_at (HoldInterpolator ℚ) 4 = Except.ok 300 ∧
    testCurveRat.value_at (HoldInterpolator ℚ) 5 = Except.ok 300 := by
  refine ⟨?_, ?_, ?_, ?_, ?_, ?_, ?_, ?_, ?_⟩ <;>
    norm_num [testCurveRat, BTreeCurve.value_at, BTreeCurve.new, BTreeCurve.set,
      insertSorted, firstGE, lastLT, LinearInterpolator, HoldInterpolator,
      instInterpolatableRat, Interpolatable.interpolate, interpolateRat]

/-- C10: the failure modes of `value_at` at the interface — an empty-curve
query and an above-maximum query both abort through the same
`panic!("too far")` (`Panic.tooFar`), so they cannot be told apart, while a
below-minimum query on a non-empty curve aborts through the distinct
`unwrap`-on-`None` path (`Panic.unwrapNone`). -/
theorem panic_paths :
    (∀ (T : Type) (ip : Interpolator T) (q : Int),
      (BTreeCurve.new T).value_at ip q = Except.error Panic.tooFar) ∧
    (∀ (T : Type) (ip : Interpolator T) (c : BTreeCurve T) (q : Int),
      (∀ kv ∈ c.points, kv.fst < q) →
      c.value_at ip q = Except.error Panic.tooFar) ∧
    (∀ (T : Type) (ip : Interpolator T) (c : BTreeCurve T) (q : Int),
      c.points ≠ [] → (∀ kv ∈ c.points, q < kv.fst) →
      c.value_at ip q = Except.error Panic.unwrapNone) ∧
    Panic.unwrapNone ≠ Panic.tooFar :=
  ⟨fun _ ip q => valueAt_empty ip q,
    fun _ ip c _ h => valueAt_above ip c h,
    fun _ ip c _ hne h => valueAt_below ip c hne h,
    by decide⟩

/-- C10 witness: the three failure modes on concrete curves. -/
theorem panic_paths_witness :
    (BTreeCurve.new ℚ).value_at (HoldInterpolator ℚ) 5 =
        Except.error Panic.tooFar ∧
    BTreeCurve.value_at (HoldInterpolator ℚ) ⟨[(2, 9)]⟩ 8 =
        Except.error Panic.tooFar ∧
    BTreeCurve.value_at (HoldInterpolator ℚ) ⟨[(2, 9)]⟩ 1 =
        Except.error Panic.unwrapNone :=
  ⟨panic_paths.1 ℚ (HoldInterpolator ℚ) 5,
    panic_paths.2.1 ℚ (HoldInterpolator ℚ) ⟨[(2, 9)]⟩ 8 (by decide),
    panic_paths.2.2.1 ℚ (HoldInterpolator ℚ) ⟨[(2, 9)]⟩ 1
      (List.cons_ne_nil _ _) (by decide)⟩

end Tween
